import Mathlib

/-
Verification of the crowdsourcing label-aggregation workflow of the
`Crowdsourced_Sentiment_Analysis` notebook.

The notebook's own logic (everything outside the external snorkel / spark /
tensorflow libraries) consists of three small pieces, shallowly embedded here:

* the vote collector (`wls = defaultdict(list); wls[row.tweet_id].append(
  (row.worker_id, row.emotion))`), embedded as `wlsUpdate` / `collectVotes`,
  with Python's `defaultdict(list)` item access embedded as `ddGetitem`;
* the majority-vote consensus estimator
  (`Counter([...]).most_common(1)[0][0]`), embedded as `mvLabel`:
  `firstKeysAux` models the insertion order of the counter's keys (a Python
  dict records keys in first-occurrence order) and `argmaxFirst` models
  `heapq.nlargest(1, items, key=count)` = `max(items, key=count)`, which keeps
  the first maximal element; `most_common(1)[0]` on an empty counter raises
  IndexError, embedded as the `none` result;
* the evaluator (`n_correct = sum(1 for i in range(L.shape[0]) if mv[i] ==
  gold[i]); n_correct / float(L.shape[0])` over rows of the inner join of the
  crowd answers with the gold answers), embedded as `joinRows`, `nCorrect` and
  `evalAccuracy`. Python/numpy float division is embedded as `pyDiv` into
  `Option ℚ`: a zero denominator yields the non-numeric NaN, embedded `none`.

Mappings (Python dicts) are embedded as association lists in insertion order;
`NodupKeys` states that such a list is a genuine mapping (distinct keys).
-/

/-- One raw crowd answer, a row of the worker-labels dataframe:
`(row.tweet_id, row.worker_id, row.emotion)`. -/
structure VoteTriple where
  tweet_id : String
  worker_id : String
  emotion : String
deriving DecidableEq

/-- Python dict lookup on an association list: value of the entry whose key
matches, if any. -/
def lkup {ι β : Type} [DecidableEq ι] (k : ι) (m : List (ι × β)) : Option β :=
  (m.find? (fun p => decide (p.1 = k))).map Prod.snd

/-- The association list represents a mapping: its keys are distinct
(Python dicts cannot hold a key twice). -/
def NodupKeys {ι β : Type} (m : List (ι × β)) : Prop :=
  (m.map Prod.fst).Nodup

instance decNodupKeys {ι β : Type} [DecidableEq ι] (m : List (ι × β)) :
    Decidable (NodupKeys m) :=
  inferInstanceAs (Decidable ((m.map Prod.fst).Nodup))

/-- One step of the vote collector loop:
`wls[row.tweet_id].append((row.worker_id, row.emotion))` on a
`defaultdict(list)`.  An existing entry gets the pair appended in place; a
missing key is inserted at the end (dict insertion order). -/
def wlsUpdate (m : List (String × List (String × String))) (t : VoteTriple) :
    List (String × List (String × String)) :=
  if t.tweet_id ∈ m.map Prod.fst then
    m.map (fun e => if e.1 = t.tweet_id then (e.1, e.2 ++ [(t.worker_id, t.emotion)]) else e)
  else
    m ++ [(t.tweet_id, [(t.worker_id, t.emotion)])]

/-- The vote collector: `for row in worker_labels: wls[row.tweet_id].append(
(row.worker_id, row.emotion))` starting from an empty `defaultdict(list)`. -/
def collectVotes (rows : List VoteTriple) : List (String × List (String × String)) :=
  rows.foldl wlsUpdate []

/-- Python `defaultdict(list)` item access `wls[k]`, as performed by
`worker_label_generator`: a present key returns its list and leaves the dict
unchanged; a missing key inserts a fresh empty list at the end and returns
it. -/
def ddGetitem (m : List (String × List (String × String))) (k : String) :
    List (String × String) × List (String × List (String × String)) :=
  match lkup k m with
  | some l => (l, m)
  | none => ([], m ++ [(k, [])])

/-- Helper describing how one item's collected vote list grows: append `vs`
to an existing list, or create the entry only when `vs` is nonempty. -/
def optAppend {β : Type} [DecidableEq β] (o : Option (List β)) (vs : List β) : Option (List β) :=
  match o with
  | some l => some (l ++ vs)
  | none => if vs = [] then none else some vs

theorem lkup_nil {ι β : Type} [DecidableEq ι] (k : ι) : lkup k ([] : List (ι × β)) = none := rfl

theorem lkup_cons {ι β : Type} [DecidableEq ι] (a : ι) (b : β) (m : List (ι × β)) (k : ι) :
    lkup k ((a, b) :: m) = if a = k then some b else lkup k m := by
  by_cases h : a = k <;> simp [lkup, List.find?_cons, h]

theorem lkup_eq_none {ι β : Type} [DecidableEq ι] (k : ι) :
    ∀ m : List (ι × β), lkup k m = none ↔ k ∉ m.map Prod.fst
  | [] => by simp [lkup]
  | (a, b) :: m => by
      rw [lkup_cons]
      by_cases h : a = k
      · subst h; simp
      · simp [h, Ne.symm h, lkup_eq_none k m]

theorem lkup_append {ι β : Type} [DecidableEq ι] (k : ι) :
    ∀ m m' : List (ι × β), lkup k (m ++ m') = (lkup k m).or (lkup k m')
  | [], m' => by simp [lkup_nil]
  | (a, b) :: m, m' => by
      rw [List.cons_append, lkup_cons, lkup_cons]
      by_cases h : a = k
      · simp [h]
      · simp [h, lkup_append k m m']

theorem lkup_map_update {ι β : Type} [DecidableEq ι] (f : β → β) (tid k : ι) :
    ∀ m : List (ι × β),
      lkup k (m.map (fun e => if e.1 = tid then (e.1, f e.2) else e)) =
        if k = tid then (lkup k m).map f else lkup k m
  | [] => by by_cases h : k = tid <;> simp [lkup_nil, h]
  | (a, b) :: m => by
      rw [List.map_cons]
      by_cases h1 : a = tid
      · rw [show (if (a, b).1 = tid then ((a, b).1, f (a, b).2) else (a, b)) = (a, f b) by
          simp [h1]]
        rw [lkup_cons, lkup_cons]
        by_cases h2 : a = k
        · have hkt : k = tid := by rw [← h2, h1]
          simp [h2, hkt]
        · rw [if_neg h2, if_neg h2, lkup_map_update f tid k m]
      · rw [show (if (a, b).1 = tid then ((a, b).1, f (a, b).2) else (a, b)) = (a, b) by
          simp [h1]]
        rw [lkup_cons, lkup_cons]
        by_cases h2 : a = k
        · have hkt : ¬ k = tid := by rw [← h2]; exact fun hc => h1 hc
          simp [h2, hkt]
        · rw [if_neg h2, if_neg h2, lkup_map_update f tid k m]

theorem lkup_isSome_of_mem {ι β : Type} [DecidableEq ι] {k : ι} {m : List (ι × β)}
    (h : k ∈ m.map Prod.fst) : ∃ v, lkup k m = some v := by
  cases hl : lkup k m with
  | none => exact absurd h ((lkup_eq_none k m).mp hl)
  | some v => exact ⟨v, rfl⟩

theorem lkup_wlsUpdate (m : List (String × List (String × String))) (t : VoteTriple)
    (k : String) :
    lkup k (wlsUpdate m t) =
      if k = t.tweet_id then some (((lkup k m).getD []) ++ [(t.worker_id, t.emotion)])
      else lkup k m := by
  unfold wlsUpdate
  by_cases hc : t.tweet_id ∈ m.map Prod.fst
  · rw [if_pos hc,
      lkup_map_update (fun l => l ++ [(t.worker_id, t.emotion)]) t.tweet_id k m]
    by_cases hk : k = t.tweet_id
    · rw [if_pos hk, if_pos hk]
      obtain ⟨v, hv⟩ := lkup_isSome_of_mem (hk ▸ hc)
      rw [hv]
      rfl
    · rw [if_neg hk, if_neg hk]
  · rw [if_neg hc, lkup_append]
    by_cases hk : k = t.tweet_id
    · have hnone : lkup k m = none := (lkup_eq_none k m).mpr (hk ▸ hc)
      rw [if_pos hk, hnone, hk, lkup_cons]
      simp
    · rw [if_neg hk]
      have : lkup k [(t.tweet_id, [(t.worker_id, t.emotion)])] = none := by
        rw [lkup_cons, lkup_nil, if_neg (fun hc2 => hk hc2.symm)]
      rw [this]
      cases lkup k m <;> rfl

theorem collect_aux (k : String) :
    ∀ (rows : List VoteTriple) (m : List (String × List (String × String))),
      lkup k (rows.foldl wlsUpdate m) =
        optAppend (lkup k m)
          ((rows.filter (fun r => decide (r.tweet_id = k))).map
            (fun r => (r.worker_id, r.emotion)))
  | [], m => by cases h : lkup k m <;> simp [optAppend, h]
  | r :: rows, m => by
      rw [List.foldl_cons, collect_aux k rows (wlsUpdate m r), lkup_wlsUpdate]
      by_cases hk : k = r.tweet_id
      · rw [if_pos hk, List.filter_cons, if_pos (by simp [hk])]
        cases h : lkup k m with
        | none => simp [optAppend, h]
        | some l => simp [optAppend, h]
      · rw [if_neg hk, List.filter_cons, if_neg (by simp; exact fun hc => hk hc.symm)]

/-- Keys of a Python `Counter` built from a list, in insertion order: a dict
records each key at its first occurrence, later occurrences only bump the
count.  `seen` accumulates the keys already recorded. -/
def firstKeysAux {α : Type} [DecidableEq α] : List α → List α → List α
  | _, [] => []
  | seen, x :: xs =>
      if x ∈ seen then firstKeysAux seen xs else x :: firstKeysAux (x :: seen) xs

/-- Keys of `Counter(l)` in insertion (first-occurrence) order. -/
def firstKeys {α : Type} [DecidableEq α] (l : List α) : List α :=
  firstKeysAux [] l

/-- One comparison step of Python `max(items, key=f)`: the current best is
replaced only by a strictly greater element, so the first maximal element
wins. -/
def maxStep {α : Type} (f : α → Nat) (best y : α) : α :=
  if f best < f y then y else best

/-- Python `max(l, key=f)` (as used by `heapq.nlargest(1, ...)` inside
`Counter.most_common(1)`): the first element of `l` attaining the maximal
`f`-value, or `none` when `l` is empty (`most_common(1)[0]` raises
IndexError on an empty counter). -/
def argmaxFirst {α : Type} (f : α → Nat) : List α → Option α
  | [] => none
  | x :: xs => some (xs.foldl (maxStep f) x)

/-- Labels of a per-item vote list, in list order. -/
def labelsOf {W L : Type} (votes : List (W × L)) : List L :=
  votes.map Prod.snd

/-- The majority-vote estimator of the notebook:
`Counter([L[i, j] for j in row.nonzero()]).most_common(1)[0][0]` for one
item's vote list.  The counter's keys are in first-occurrence order and
`most_common(1)` takes the first key with maximal count. -/
def mvLabel {W L : Type} [DecidableEq L] (votes : List (W × L)) : Option L :=
  argmaxFirst (fun lab => (labelsOf votes).count lab) (firstKeys (labelsOf votes))

theorem mem_firstKeysAux {α : Type} [DecidableEq α] (a : α) :
    ∀ (l seen : List α), a ∈ firstKeysAux seen l ↔ a ∈ l ∧ a ∉ seen
  | [], seen => by simp [firstKeysAux]
  | x :: xs, seen => by
      by_cases hx : x ∈ seen
      · rw [show firstKeysAux seen (x :: xs) = firstKeysAux seen xs by
          simp [firstKeysAux, hx]]
        rw [mem_firstKeysAux a xs seen]
        simp only [List.mem_cons]
        constructor
        · rintro ⟨h1, h2⟩; exact ⟨Or.inr h1, h2⟩
        · rintro ⟨h1 | h1, h2⟩
          · subst h1; exact absurd hx h2
          · exact ⟨h1, h2⟩
      · rw [show firstKeysAux seen (x :: xs) = x :: firstKeysAux (x :: seen) xs by
          simp [firstKeysAux, hx]]
        simp only [List.mem_cons, mem_firstKeysAux a xs (x :: seen)]
        constructor
        · rintro (rfl | ⟨h1, h2⟩)
          · exact ⟨Or.inl rfl, hx⟩
          · refine ⟨Or.inr h1, fun hs => h2 (Or.inr hs)⟩
        · rintro ⟨h1 | h1, h2⟩
          · subst h1; exact Or.inl rfl
          · by_cases hax : a = x
            · exact Or.inl hax
            · refine Or.inr ⟨h1, fun hs => ?_⟩
              rcases hs with h3 | h3
              · exact hax h3
              · exact h2 h3

theorem mem_firstKeys {α : Type} [DecidableEq α] (a : α) (l : List α) :
    a ∈ firstKeys l ↔ a ∈ l := by
  rw [firstKeys, mem_firstKeysAux]
  simp

theorem pairwise_indexOf_firstKeysAux {α : Type} [DecidableEq α] :
    ∀ (l seen : List α),
      List.Pairwise (fun a b => l.indexOf a < l.indexOf b) (firstKeysAux seen l)
  | [], _ => List.Pairwise.nil
  | x :: xs, seen => by
      have htransfer : ∀ (s : List α), x ∈ s →
          ∀ a b, a ∈ firstKeysAux s xs → b ∈ firstKeysAux s xs →
            xs.indexOf a < xs.indexOf b →
            (x :: xs).indexOf a < (x :: xs).indexOf b := by
        intro s hxs a b ha hb hab
        have hax : a ≠ x := fun hc =>
          ((mem_firstKeysAux a xs s).mp ha).2 (hc ▸ hxs)
        have hbx : b ≠ x := fun hc =>
          ((mem_firstKeysAux b xs s).mp hb).2 (hc ▸ hxs)
        rw [List.indexOf_cons_ne _ (Ne.symm hax), List.indexOf_cons_ne _ (Ne.symm hbx)]
        exact Nat.succ_lt_succ hab
      by_cases hx : x ∈ seen
      · rw [show firstKeysAux seen (x :: xs) = firstKeysAux seen xs by
          simp [firstKeysAux, hx]]
        have IH := pairwise_indexOf_firstKeysAux xs seen
        exact IH.imp_of_mem (fun {a b} ha hb hab => htransfer seen hx a b ha hb hab)
      · rw [show firstKeysAux seen (x :: xs) = x :: firstKeysAux (x :: seen) xs by
          simp [firstKeysAux, hx]]
        refine List.pairwise_cons.mpr ⟨?_, ?_⟩
        · intro b hb
          have hbx : b ≠ x := fun hc =>
            ((mem_firstKeysAux b xs (x :: seen)).mp hb).2 (hc ▸ List.mem_cons_self x seen)
          rw [List.indexOf_cons_self, List.indexOf_cons_ne _ (Ne.symm hbx)]
          exact Nat.succ_pos _
        · have IH := pairwise_indexOf_firstKeysAux xs (x :: seen)
          exact IH.imp_of_mem (fun {a b} ha hb hab =>
            htransfer (x :: seen) (List.mem_cons_self x seen) a b ha hb hab)

theorem pairwise_indexOf_firstKeys {α : Type} [DecidableEq α] (l : List α) :
    List.Pairwise (fun a b => l.indexOf a < l.indexOf b) (firstKeys l) :=
  pairwise_indexOf_firstKeysAux l []

theorem foldl_maxStep_le {α : Type} (f : α → Nat) :
    ∀ (l : List α) (b : α), f b ≤ f (l.foldl (maxStep f) b)
  | [], _ => le_refl _
  | y :: ys, b => by
      rw [List.foldl_cons]
      by_cases h : f b < f y
      · rw [show maxStep f b y = y by simp [maxStep, h]]
        exact le_of_lt (lt_of_lt_of_le h (foldl_maxStep_le f ys y))
      · rw [show maxStep f b y = b by simp [maxStep, h]]
        exact foldl_maxStep_le f ys b

theorem foldl_maxStep_split {α : Type} (f : α → Nat) :
    ∀ (l : List α) (b : α), ∃ l1 l2,
      b :: l = l1 ++ (l.foldl (maxStep f) b) :: l2 ∧
        (∀ y ∈ l1, f y < f (l.foldl (maxStep f) b)) ∧
        (∀ y ∈ l2, f y ≤ f (l.foldl (maxStep f) b))
  | [], b =>
      ⟨[], [], rfl, fun y hy => absurd hy (List.not_mem_nil y),
        fun y hy => absurd hy (List.not_mem_nil y)⟩
  | y :: ys, b => by
      rw [List.foldl_cons]
      by_cases h : f b < f y
      · rw [show maxStep f b y = y by simp [maxStep, h]]
        obtain ⟨l1, l2, heq, h1, h2⟩ := foldl_maxStep_split f ys y
        refine ⟨b :: l1, l2, ?_, ?_, h2⟩
        · rw [List.cons_append, ← heq]
        · intro z hz
          rcases List.mem_cons.mp hz with rfl | hz'
          · exact lt_of_lt_of_le h (foldl_maxStep_le f ys y)
          · exact h1 z hz'
      · rw [show maxStep f b y = b by simp [maxStep, h]]
        obtain ⟨l1, l2, heq, h1, h2⟩ := foldl_maxStep_split f ys b
        generalize hr : List.foldl (maxStep f) b ys = r at heq h1 h2 ⊢
        cases l1 with
        | nil =>
            rw [List.nil_append] at heq
            injection heq with hb hl
            refine ⟨[], y :: ys, ?_, ?_, ?_⟩
            · rw [List.nil_append, ← hb]
            · intro z hz; exact absurd hz (List.not_mem_nil z)
            · intro z hz
              rcases List.mem_cons.mp hz with rfl | hz'
              · rw [← hb]; exact not_lt.mp h
              · exact h2 z (hl ▸ hz')
        | cons c l1' =>
            rw [List.cons_append] at heq
            injection heq with hc hys
            refine ⟨b :: y :: l1', l2, ?_, ?_, h2⟩
            · rw [List.cons_append, List.cons_append, hys]
            · intro z hz
              have hbr : f b < f r := by
                rw [hc]; exact h1 c (List.mem_cons_self _ _)
              rcases List.mem_cons.mp hz with rfl | hz'
              · exact hbr
              · rcases List.mem_cons.mp hz' with rfl | hz''
                · exact lt_of_le_of_lt (not_lt.mp h) hbr
                · exact h1 z (List.mem_cons_of_mem _ hz'')

theorem argmaxFirst_split {α : Type} (f : α → Nat) (l : List α) (b : α)
    (h : argmaxFirst f l = some b) :
    ∃ l1 l2, l = l1 ++ b :: l2 ∧ (∀ y ∈ l1, f y < f b) ∧ (∀ y ∈ l2, f y ≤ f b) := by
  cases l with
  | nil => exact absurd h (by simp [argmaxFirst])
  | cons x xs =>
      have hb : xs.foldl (maxStep f) x = b := by
        have := h
        rw [argmaxFirst] at this
        exact Option.some.inj this
      obtain ⟨l1, l2, heq, h1, h2⟩ := foldl_maxStep_split f xs x
      rw [hb] at heq h1 h2
      exact ⟨l1, l2, heq, h1, h2⟩

theorem argmaxFirst_mem {α : Type} (f : α → Nat) (l : List α) (b : α)
    (h : argmaxFirst f l = some b) : b ∈ l := by
  obtain ⟨l1, l2, heq, _, _⟩ := argmaxFirst_split f l b h
  rw [heq]
  exact List.mem_append.mpr (Or.inr (List.mem_cons_self _ _))

theorem argmaxFirst_max {α : Type} (f : α → Nat) (l : List α) (b : α)
    (h : argmaxFirst f l = some b) : ∀ y ∈ l, f y ≤ f b := by
  obtain ⟨l1, l2, heq, h1, h2⟩ := argmaxFirst_split f l b h
  intro y hy
  rw [heq] at hy
  rcases List.mem_append.mp hy with h' | h'
  · exact le_of_lt (h1 y h')
  · rcases List.mem_cons.mp h' with rfl | h''
    · exact le_refl _
    · exact h2 y h''

theorem mvLabel_max {W L : Type} [DecidableEq L] (votes : List (W × L)) (lab : L)
    (h : mvLabel votes = some lab) :
    lab ∈ labelsOf votes ∧
      ∀ m ∈ labelsOf votes, (labelsOf votes).count m ≤ (labelsOf votes).count lab := by
  rw [mvLabel] at h
  constructor
  · exact (mem_firstKeys lab _).mp (argmaxFirst_mem _ _ _ h)
  · intro m hm
    exact argmaxFirst_max _ _ _ h m ((mem_firstKeys m _).mpr hm)

theorem mvLabel_earliest {W L : Type} [DecidableEq L] (votes : List (W × L)) (lab m : L)
    (h : mvLabel votes = some lab) (hm : m ∈ labelsOf votes)
    (hc : (labelsOf votes).count m = (labelsOf votes).count lab) :
    (labelsOf votes).indexOf lab ≤ (labelsOf votes).indexOf m := by
  rw [mvLabel] at h
  obtain ⟨l1, l2, heq, h1, h2⟩ := argmaxFirst_split _ _ _ h
  have hPW := pairwise_indexOf_firstKeys (labelsOf votes)
  rw [heq] at hPW
  have hmFK : m ∈ l1 ++ lab :: l2 := heq ▸ (mem_firstKeys m _).mpr hm
  rcases List.mem_append.mp hmFK with hm1 | hm2
  · exact absurd hc (Nat.ne_of_lt (h1 m hm1))
  · rcases List.mem_cons.mp hm2 with rfl | hm2'
    · exact le_refl _
    · have hPW2 := (List.pairwise_append.mp hPW).2.1
      exact le_of_lt ((List.pairwise_cons.mp hPW2).1 m hm2')

theorem firstKeysAux_replicate {α : Type} [DecidableEq α] (lab : α) (seen : List α)
    (hmem : lab ∈ seen) :
    ∀ n : Nat, firstKeysAux seen (List.replicate n lab) = []
  | 0 => rfl
  | n + 1 => by
      rw [List.replicate_succ]
      rw [show firstKeysAux seen (lab :: List.replicate n lab)
            = firstKeysAux seen (List.replicate n lab) by simp [firstKeysAux, hmem]]
      exact firstKeysAux_replicate lab seen hmem n

theorem mvLabel_replicate {W L : Type} [DecidableEq L] (w : W) (lab : L) (n : Nat)
    (hn : 1 ≤ n) : mvLabel (List.replicate n (w, lab)) = some lab := by
  obtain ⟨m, rfl⟩ : ∃ m, n = m + 1 := ⟨n - 1, (Nat.succ_pred_eq_of_pos hn).symm⟩
  have hl : labelsOf (List.replicate (m + 1) (w, lab)) = List.replicate (m + 1) lab := by
    simp [labelsOf]
  have hk : firstKeys (List.replicate (m + 1) lab) = [lab] := by
    rw [firstKeys, List.replicate_succ]
    rw [show firstKeysAux [] (lab :: List.replicate m lab)
          = lab :: firstKeysAux [lab] (List.replicate m lab) by simp [firstKeysAux]]
    rw [firstKeysAux_replicate lab [lab] (List.mem_cons_self lab []) m]
  rw [mvLabel, hl, hk]
  rfl

/-- Python/numpy float division used by `n_correct / float(L_train.shape[0])`:
an exact quotient for a nonzero denominator; a zero denominator produces the
non-numeric NaN (numpy emits a RuntimeWarning and yields `nan` instead of a
number), embedded as `none`. -/
def pyDiv (a b : ℚ) : Option ℚ :=
  if b = 0 then none else some (a / b)

/-- The rows over which the notebook evaluates: the inner join of the
estimate mapping with the ground-truth mapping (only tweets with available
ground truth survive `raw_crowd_answers.join(gold_answers, ...)`), each row
carrying the item, its estimate and its ground truth. -/
def joinRows {ι α : Type} [DecidableEq ι] (est gold : List (ι × α)) :
    List (ι × α × α) :=
  est.filterMap (fun p => (lkup p.1 gold).map (fun g => (p.1, p.2, g)))

/-- `n_correct = np.sum([1 for i in range(L_train.shape[0]) if mv[i] ==
train_cand_labels[i]])`: number of rows whose estimate equals the ground
truth. -/
def nCorrect {ι α : Type} [DecidableEq α] (rows : List (ι × α × α)) : Nat :=
  rows.countP (fun r => decide (r.2.1 = r.2.2))

/-- The evaluator: `n_correct / float(L_train.shape[0])`, the denominator
being the number of evaluated rows. -/
def evalAccuracy {ι α : Type} [DecidableEq ι] [DecidableEq α]
    (est gold : List (ι × α)) : Option ℚ :=
  pyDiv (nCorrect (joinRows est gold)) ((joinRows est gold).length)

/-- Modelled from the spec: the items compared by the evaluator, namely "the
intersection of both key sets". -/
def specComparedKeys {ι α : Type} [DecidableEq ι] (est gold : List (ι × α)) :
    List ι :=
  (est.map Prod.fst).filter (fun k => decide (k ∈ gold.map Prod.fst))

/-- Modelled from the spec: the "count where estimate == ground truth" over
the compared items. -/
def specNumCorrect {ι α : Type} [DecidableEq ι] [DecidableEq α]
    (est gold : List (ι × α)) : Nat :=
  (specComparedKeys est gold).countP (fun k => decide (lkup k est = lkup k gold))

/-- Modelled from the spec: "accuracy = (count where estimate == ground
truth) / (count of items compared)", undefined when no items are compared. -/
def specAccuracy {ι α : Type} [DecidableEq ι] [DecidableEq α]
    (est gold : List (ι × α)) : Option ℚ :=
  pyDiv (specNumCorrect est gold) ((specComparedKeys est gold).length)

theorem lkup_mem {ι β : Type} [DecidableEq ι] (k : ι) (v : β) :
    ∀ m : List (ι × β), lkup k m = some v → (k, v) ∈ m
  | [] => by simp [lkup_nil]
  | (a, b) :: m => by
      rw [lkup_cons]
      by_cases h : a = k
      · rw [if_pos h]
        intro hv
        subst h
        rw [Option.some.injEq] at hv
        subst hv
        exact List.mem_cons_self _ _
      · rw [if_neg h]
        intro hv
        exact List.mem_cons_of_mem _ (lkup_mem k v m hv)

theorem lkup_of_mem {ι β : Type} [DecidableEq ι] {k : ι} {v : β} :
    ∀ {m : List (ι × β)}, NodupKeys m → (k, v) ∈ m → lkup k m = some v
  | [], _, hmem => absurd hmem (List.not_mem_nil _)
  | (a, b) :: m, hnd, hmem => by
      have hnd' := (List.nodup_cons.mp hnd)
      rw [lkup_cons]
      rcases List.mem_cons.mp hmem with heq | hmem'
      · rw [Prod.mk.injEq] at heq
        rw [if_pos heq.1.symm, heq.2]
      · by_cases h : a = k
        · exfalso
          subst h
          exact hnd'.1 (List.mem_map.mpr ⟨(a, v), hmem', rfl⟩)
        · rw [if_neg h]
          exact lkup_of_mem hnd'.2 hmem'

theorem lkup_perm {ι β : Type} [DecidableEq ι] {m₁ m₂ : List (ι × β)}
    (h : m₁.Perm m₂) (hnd : NodupKeys m₁) (k : ι) : lkup k m₁ = lkup k m₂ := by
  have hnd₂ : NodupKeys m₂ := ((h.map Prod.fst).nodup_iff).mp hnd
  cases hl : lkup k m₁ with
  | some v =>
      exact (lkup_of_mem hnd₂ (h.mem_iff.mp (lkup_mem k v m₁ hl))).symm
  | none =>
      have hk : k ∉ m₂.map Prod.fst := fun hmem =>
        ((lkup_eq_none k m₁).mp hl) (((h.map Prod.fst).mem_iff).mpr hmem)
      exact ((lkup_eq_none k m₂).mpr hk).symm

theorem joinRows_cons {ι α : Type} [DecidableEq ι] (e : ι × α) (est gold : List (ι × α)) :
    joinRows (e :: est) gold =
      match lkup e.1 gold with
      | none => joinRows est gold
      | some g => (e.1, e.2, g) :: joinRows est gold := by
  rw [joinRows, joinRows, List.filterMap_cons]
  cases lkup e.1 gold <;> rfl

theorem joinRows_length {ι α : Type} [DecidableEq ι] (gold : List (ι × α)) :
    ∀ est : List (ι × α),
      (joinRows est gold).length = est.countP (fun e => (lkup e.1 gold).isSome)
  | [] => rfl
  | e :: est => by
      rw [joinRows_cons, List.countP_cons]
      cases h : lkup e.1 gold with
      | none => simp [joinRows_length gold est]
      | some g => simp [joinRows_length gold est]

theorem nCorrect_joinRows {ι α : Type} [DecidableEq ι] [DecidableEq α]
    (gold : List (ι × α)) :
    ∀ est : List (ι × α),
      nCorrect (joinRows est gold) =
        est.countP (fun e => decide (lkup e.1 gold = some e.2))
  | [] => rfl
  | e :: est => by
      rw [joinRows_cons, List.countP_cons]
      cases h : lkup e.1 gold with
      | none => simp [nCorrect_joinRows gold est]
      | some g =>
          by_cases hg : e.2 = g
          · subst hg
            simp [nCorrect, List.countP_cons]
            exact nCorrect_joinRows gold est
          · simp [nCorrect, List.countP_cons, hg, Ne.symm hg]
            exact nCorrect_joinRows gold est

theorem lkup_isSome_iff_mem {ι β : Type} [DecidableEq ι] (k : ι) (m : List (ι × β)) :
    (lkup k m).isSome = true ↔ k ∈ m.map Prod.fst := by
  cases hl : lkup k m with
  | none => simpa using (lkup_eq_none k m).mp hl
  | some v =>
      simp only [Option.isSome_some, true_iff]
      exact List.mem_map.mpr ⟨(k, v), lkup_mem k v m hl, rfl⟩

theorem specComparedKeys_length {ι α : Type} [DecidableEq ι]
    (est gold : List (ι × α)) :
    (specComparedKeys est gold).length = est.countP (fun e => (lkup e.1 gold).isSome) := by
  rw [specComparedKeys, ← List.countP_eq_length_filter, List.countP_map]
  refine List.countP_congr (fun e _ => ?_)
  simp only [Function.comp_apply, decide_eq_true_eq]
  exact (Iff.symm (lkup_isSome_iff_mem e.1 gold))

theorem specNumCorrect_eq {ι α : Type} [DecidableEq ι] [DecidableEq α]
    {est : List (ι × α)} (gold : List (ι × α)) (hnd : NodupKeys est) :
    specNumCorrect est gold =
      est.countP (fun e => decide (lkup e.1 gold = some e.2)) := by
  rw [specNumCorrect, specComparedKeys, List.countP_filter, List.countP_map]
  refine List.countP_congr (fun e he => ?_)
  simp only [Function.comp_apply, Bool.and_eq_true, decide_eq_true_eq]
  have hself : lkup e.1 est = some e.2 := lkup_of_mem hnd (by simpa using he)
  constructor
  · rintro ⟨h1, _⟩
    rw [hself] at h1
    exact h1.symm
  · intro h1
    refine ⟨by rw [hself, h1], ?_⟩
    exact (lkup_isSome_iff_mem e.1 gold).mp (by rw [h1]; rfl)

/-- C1: when the estimate mapping and the ground-truth mapping share no item
(zero rows in the evaluated label matrix), the evaluator's result is the
distinct undefined outcome `none` — the embedding of the non-numeric NaN the
0/0 division produces — rather than a crash or a numeric (0% or 100%)
accuracy. -/
theorem C1_empty_intersection_no_data (est gold : List (String × Int))
    (h : ∀ k ∈ est.map Prod.fst, k ∉ gold.map Prod.fst) :
    evalAccuracy est gold = none := by
  have hjoin : joinRows est gold = [] := by
    rw [joinRows, List.filterMap_eq_nil_iff]
    intro p hp
    have hnone : lkup p.1 gold = none :=
      (lkup_eq_none p.1 gold).mpr (h p.1 (List.mem_map.mpr ⟨p, hp, rfl⟩))
    rw [hnone]
    rfl
  unfold evalAccuracy
  rw [hjoin]
  simp [nCorrect, pyDiv]

theorem C1_witness : evalAccuracy [("A", (1 : Int))] [("B", (1 : Int))] = none :=
  C1_empty_intersection_no_data _ _ (by decide)

/-- C2: the evaluator's accuracy is the number of items in the intersection
of the two key sets whose estimate equals the ground truth, divided by the
size of that intersection (items present in only one mapping are excluded
from the denominator); on the spec's example (estimate-map A↦1, B↦2 against
truth-map A↦1, C↦3) only A is compared and the accuracy is 1. -/
theorem C2_accuracy_over_intersection :
    (∀ est gold : List (String × Int), NodupKeys est → NodupKeys gold →
        evalAccuracy est gold = specAccuracy est gold) ∧
    evalAccuracy [("A", (1 : Int)), ("B", 2)] [("A", 1), ("C", 3)] = some 1 := by
  constructor
  · intro est gold hne hng
    unfold evalAccuracy specAccuracy
    rw [joinRows_length, nCorrect_joinRows, specComparedKeys_length,
      specNumCorrect_eq gold hne]
  · have hjoin : joinRows [("A", (1 : Int)), ("B", 2)] [("A", 1), ("C", 3)]
        = [("A", 1, 1)] := by decide
    unfold evalAccuracy
    rw [hjoin]
    norm_num [pyDiv, nCorrect, List.countP_cons, List.countP_nil]

theorem C2_witness :
    evalAccuracy [("X", (5 : Int))] [("X", 5)] =
      specAccuracy [("X", (5 : Int))] [("X", 5)] :=
  C2_accuracy_over_intersection.1 _ _ (by decide) (by decide)

/-- C3: an empty vote list never silently yields a guessed label: the
estimator's result on an empty vote list is the distinct no-votes outcome
`none` (in the notebook, `most_common(1)[0]` raises IndexError on the empty
counter), and any produced label comes from a nonempty vote list. -/
theorem C3_empty_votes_signal :
    mvLabel ([] : List (String × String)) = none ∧
      ∀ (votes : List (String × String)) (lab : String),
        mvLabel votes = some lab → votes ≠ [] := by
  refine ⟨rfl, ?_⟩
  intro votes lab h hnil
  subst hnil
  exact Option.noConfusion h

theorem C3_witness : ([("w1", "pos")] : List (String × String)) ≠ [] :=
  C3_empty_votes_signal.2 [("w1", "pos")] "pos" (by decide)

/-- C4 counterexample: the vote collector performs no label validation. A
triple whose label "bogus" is outside the known label set is stored as-is in
the item's vote list and even becomes the majority-vote estimate, refuting
the claim that unknown labels are rejected at collection time. -/
theorem C4_counterexample :
    lkup "A" (collectVotes [⟨"A", "w1", "bogus"⟩]) = some [("w1", "bogus")] ∧
      "bogus" ∉ ["pos", "neg"] ∧
      mvLabel [("w1", "bogus")] = some "bogus" :=
  ⟨by decide, by decide, by decide⟩

/-- C4 amended: vote collection performs no validation of label values:
every input triple, whatever its label, ends up as a (worker, label) pair in
its item's collected vote list, visible to the estimator. -/
theorem C4_amended_no_validation (rows : List VoteTriple) (r : VoteTriple)
    (h : r ∈ rows) :
    ∃ l, lkup r.tweet_id (collectVotes rows) = some l ∧
      (r.worker_id, r.emotion) ∈ l := by
  have hmem : (r.worker_id, r.emotion) ∈
      (rows.filter (fun x => decide (x.tweet_id = r.tweet_id))).map
        (fun x => (x.worker_id, x.emotion)) :=
    List.mem_map.mpr ⟨r, List.mem_filter.mpr ⟨h, by simp⟩, rfl⟩
  have hne : (rows.filter (fun x => decide (x.tweet_id = r.tweet_id))).map
        (fun x => (x.worker_id, x.emotion)) ≠ [] := by
    intro hc
    rw [hc] at hmem
    exact List.not_mem_nil _ hmem
  refine ⟨_, ?_, hmem⟩
  rw [collectVotes, collect_aux r.tweet_id rows [], lkup_nil]
  simp [optAppend, hne]

theorem C4_amended_witness :
    ∃ l, lkup "A" (collectVotes [⟨"A", "w1", "zzz"⟩]) = some l ∧
      ("w1", "zzz") ∈ l :=
  C4_amended_no_validation [⟨"A", "w1", "zzz"⟩] ⟨"A", "w1", "zzz"⟩ (by decide)

/-- C5: the majority-vote estimator returns a label whose vote count is
maximal among the labels of the list; a vote list holding one distinct label
repeated n ≥ 1 times yields that label; and on the example list with two
"pos" votes and one "neg" vote it returns "pos". -/
theorem C5_plurality :
    (∀ (votes : List (String × String)) (lab : String), mvLabel votes = some lab →
        lab ∈ labelsOf votes ∧
          ∀ m ∈ labelsOf votes,
            (labelsOf votes).count m ≤ (labelsOf votes).count lab) ∧
    (∀ (w lab : String) (n : Nat), 1 ≤ n →
        mvLabel (List.replicate n (w, lab)) = some lab) ∧
    mvLabel [("w1", "pos"), ("w2", "pos"), ("w3", "neg")] = some "pos" :=
  ⟨fun votes lab h => mvLabel_max votes lab h,
    fun w lab n hn => mvLabel_replicate w lab n hn, by decide⟩

theorem C5_witness :
    mvLabel (List.replicate 3 (("w1" : String), ("pos" : String))) = some "pos" :=
  C5_plurality.2.1 "w1" "pos" 3 (by decide)

/-- C6: the majority-vote estimator is a deterministic pure function: equal
vote lists give equal estimates, and even a perfectly tied list gets a single
determinate estimate (the embedding fixes the counter's insertion order and
the total first-maximum tie-break of `most_common`). -/
theorem C6_deterministic :
    (∀ v w : List (String × String), v = w → mvLabel v = mvLabel w) ∧
      mvLabel [("w1", "pos"), ("w2", "neg")] = some "pos" ∧
      mvLabel [("w1", "neg"), ("w2", "pos")] = some "neg" :=
  ⟨fun v w h => by rw [h], by decide, by decide⟩

theorem C6_witness :
    mvLabel [("w1", "pos"), ("w2", "neg")] = mvLabel [("w1", "pos"), ("w2", "neg")] :=
  C6_deterministic.1 _ _ rfl

/-- C7: the evaluator's accuracy is unchanged when the iteration order of
either input mapping is permuted. -/
theorem C7_order_invariant (est est2 gold gold2 : List (String × Int))
    (hE : est.Perm est2) (hG : gold.Perm gold2)
    (hne : NodupKeys est) (hng : NodupKeys gold) :
    evalAccuracy est2 gold2 = evalAccuracy est gold := by
  have hjoin2 : joinRows est2 gold2 = joinRows est2 gold := by
    rw [joinRows, joinRows]
    exact List.filterMap_congr (fun p _ => by rw [(lkup_perm hG hng p.1).symm])
  have hperm : (joinRows est2 gold).Perm (joinRows est gold) :=
    List.Perm.filterMap _ hE.symm
  unfold evalAccuracy
  rw [hjoin2,
    show nCorrect (joinRows est2 gold) = nCorrect (joinRows est gold) from
      List.Perm.countP_eq _ hperm,
    hperm.length_eq]

theorem C7_witness :
    evalAccuracy [("B", (2 : Int)), ("A", 1)] [("A", 1)] =
      evalAccuracy [("A", (1 : Int)), ("B", 2)] [("A", 1)] :=
  C7_order_invariant _ _ _ _ (by decide) (by decide) (by decide) (by decide)

/-- C8: the vote collector maps each item id to the list of its
(worker, label) pairs in the input's insertion order, keeps duplicate
(item, worker) entries as-is, and creates no entry for an item with no
votes. -/
theorem C8_collector_grouping (rows : List VoteTriple) (it : String) :
    lkup it (collectVotes rows) =
      (if (rows.filter (fun r => decide (r.tweet_id = it))).map
            (fun r => (r.worker_id, r.emotion)) = []
       then none
       else some ((rows.filter (fun r => decide (r.tweet_id = it))).map
            (fun r => (r.worker_id, r.emotion)))) := by
  rw [collectVotes, collect_aux it rows [], lkup_nil]
  rfl

/-- C9: the implemented tie-break: the estimate is always a maximal-count
label whose first occurrence is earliest in the vote list, so permuting a
tied vote list can change the estimate, as the two-vote tie example shows. -/
theorem C9_tie_break :
    (∀ (votes : List (String × String)) (lab m : String),
        mvLabel votes = some lab → m ∈ labelsOf votes →
        (labelsOf votes).count m = (labelsOf votes).count lab →
        (labelsOf votes).indexOf lab ≤ (labelsOf votes).indexOf m) ∧
      (List.Perm [("w1", "pos"), ("w2", "neg")] [("w2", "neg"), ("w1", "pos")] ∧
        mvLabel [("w1", "pos"), ("w2", "neg")] = some "pos" ∧
        mvLabel [("w2", "neg"), ("w1", "pos")] = some "neg") :=
  ⟨fun votes lab m h hm hc => mvLabel_earliest votes lab m h hm hc,
    by decide, by decide, by decide⟩

theorem C9_witness :
    (labelsOf [(("w1" : String), ("pos" : String)), ("w2", "neg")]).indexOf "pos" ≤
      (labelsOf [(("w1" : String), ("pos" : String)), ("w2", "neg")]).indexOf "neg" :=
  C9_tie_break.1 _ "pos" "neg" (by decide) (by decide) (by decide)

/-- C10: `defaultdict(list)` item access on an item id absent from the
collected mapping yields an empty iteration (no error) and, as a side
effect, inserts an empty-list entry for that item id, so afterwards the
mapping holds a key with zero votes. -/
theorem C10_defaultdict_access (m : List (String × List (String × String)))
    (k : String) (h : lkup k m = none) :
    ddGetitem m k = ([], m ++ [(k, [])]) ∧ lkup k (ddGetitem m k).2 = some [] := by
  constructor
  · simp [ddGetitem, h]
  · simp [ddGetitem, h, lkup_append, lkup_cons, lkup_nil]

theorem C10_witness :
    ddGetitem [("A", [("w1", "pos")])] "B" = ([], [("A", [("w1", "pos")]), ("B", [])]) ∧
      lkup "B" (ddGetitem [("A", [("w1", "pos")])] "B").2 = some [] :=
  C10_defaultdict_access _ _ (by decide)
